import Mathlib

/-!
Shallow embedding of `src/testmachine/testmachine.py` — a random stack-machine
test generator with automatic failure minimization — together with proofs of
the specification's claims about it.

Modeling conventions:
* Python's in-place mutation becomes explicit state passing: every method of
  `VarStack` / `RunContext` / `TestMachine` is a function from the old state to
  the new state.
* A raised Python exception becomes an `Except PyError` result (for the stack
  layer, where the exception class matters) or a `Bool` "raised" flag (for the
  engine, which catches `except Exception` uniformly).
* The stack-layer primitives raise only *before* mutating (the frozen and
  integrity checks precede every write, and an out-of-range list index is hit
  before any append or pop has happened), so an `Except.error` result stands
  for "state unchanged, exception raised"; the one exception-path mutation Python would
  keep — lazy insertion of a brand new empty stack into the `varstacks` dict —
  is observationally invisible because the dict is modeled as a total map that
  already defaults to an empty stack.
-/

namespace Testmachine

/-- The exception classes the stack layer can raise (testmachine.py lines
25–35, 46–47, 61–90): `FrozenVarStack` (a `TestMachineError`), the
`AssertionError` of `_integrity_check`, and the `IndexError` of an
out-of-range Python list index. -/
inductive PyError where
  | frozenVarStack
  | assertionError
  | indexError
deriving DecidableEq

/-- Which exceptions are `TestMachineError`s (lines 25–35): `FrozenVarStack`
subclasses `TestMachineError`; `AssertionError` and `IndexError` do not. -/
def PyError.isTestMachineError : PyError → Bool
  | .frozenVarStack => true
  | _ => false

/-- One named stack (`VarStack.__init__`, lines 38–44): parallel lists of
runtime values and symbolic names plus the frozen flag.  The *back* of each
list is the top of the stack, matching Python's `append`/`pop`/`[-1]`.  The
Python object's `name` and `context` fields are represented implicitly: since
a stack mutates its owning context (`on_read`/`on_write`/`newvar`), all stack
methods are defined on `RunContext` below, taking the stack's name as an
argument. -/
structure VarStack (V : Type) where
  data : List V
  names : List String
  frozen : Bool

/-- `RunContext.__init__` (lines 93–98).  The `varstacks` dict is modeled as a
total map defaulting to a fresh empty stack: `varstack(name)`'s lazy creation
inserts exactly `VarStack(name, self)`, i.e. an empty unfrozen stack, so
get-or-create is observationally the map application.  The `self.random`
field — a freshly constructed *unseeded* `Random()` whenever the optional
`random` argument is not supplied, which is the case at every construction
site in the engine — is consumed only by the external operation library's
`generate`; it is modeled at the generator boundary (the trial-index argument
of the search loop's generator, and `chooseFromGen` below). -/
structure RunContext (V : Type) where
  varstacks : String → VarStack V
  var_index : Nat
  values_read : List String
  values_written : List String

variable {V : Type}

/-- A fresh context, as built by every `RunContext()` call in the engine. -/
def RunContext.init : RunContext V :=
  ⟨fun _ => ⟨[], [], false⟩, 0, [], []⟩

/-- `reset_tracking` (lines 100–102): clear both transient logs. -/
def RunContext.reset_tracking (c : RunContext V) : RunContext V :=
  { c with values_read := [], values_written := [] }

/-- `newvar` (lines 112–114): increment the counter and format `"t%d"`. -/
def RunContext.newvar (c : RunContext V) : String × RunContext V :=
  ("t" ++ toString (c.var_index + 1), { c with var_index := c.var_index + 1 })

/-- `on_read` (lines 116–117). -/
def RunContext.on_read (c : RunContext V) (var : String) : RunContext V :=
  { c with values_read := c.values_read ++ [var] }

/-- `on_write` (lines 119–120). -/
def RunContext.on_write (c : RunContext V) (var : String) : RunContext V :=
  { c with values_written := c.values_written ++ [var] }

/-- `varstack(name)` (lines 122–128): return the stack registered under
`name`; with the total-map representation the lazily created empty stack is
the map's default. -/
def RunContext.varstack (c : RunContext V) (name : String) : VarStack V :=
  c.varstacks name

/-- Store an updated stack back under its name (the in-place mutation of the
Python stack object registered in the dict). -/
def RunContext.setStack (c : RunContext V) (name : String) (s : VarStack V) :
    RunContext V :=
  { c with varstacks := fun m => if m = name then s else c.varstacks m }

/-- `VarStack.push` (lines 68–74): frozen check, integrity assert, append the
value, draw a fresh symbolic name, append it, record the write event. -/
def RunContext.push (c : RunContext V) (name : String) (v : V) :
    Except PyError (RunContext V) :=
  let s := c.varstack name
  if s.frozen then .error .frozenVarStack
  else if s.data.length = s.names.length then
    let nv := c.newvar
    let c2 := nv.2.setStack name
      { s with data := s.data ++ [v], names := s.names ++ [nv.1] }
    .ok (c2.on_write nv.1)
  else .error .assertionError

/-- `VarStack.pop` (lines 61–66): frozen check, integrity assert, pop the
value (IndexError when empty), pop the name and record the read event. -/
def RunContext.pop (c : RunContext V) (name : String) :
    Except PyError (V × RunContext V) :=
  let s := c.varstack name
  if s.frozen then .error .frozenVarStack
  else if s.data.length = s.names.length then
    match s.data.getLast?, s.names.getLast? with
    | some v, some nm =>
        .ok (v, (c.setStack name
          { s with data := s.data.dropLast, names := s.names.dropLast }).on_read nm)
    | _, _ => .error .indexError
  else .error .assertionError

/-- `VarStack.dup` (lines 76–80): frozen check, integrity assert, duplicate
the top name and the top value (IndexError on empty; no read/write event and
no fresh name). -/
def RunContext.dup (c : RunContext V) (name : String) :
    Except PyError (RunContext V) :=
  let s := c.varstack name
  if s.frozen then .error .frozenVarStack
  else if s.data.length = s.names.length then
    match s.names.getLast?, s.data.getLast? with
    | some nm, some v =>
        .ok (c.setStack name
          { s with names := s.names ++ [nm], data := s.data ++ [v] })
    | _, _ => .error .indexError
  else .error .assertionError

/-- `VarStack.peek` (lines 82–86): integrity assert (no frozen check), read
index `-1 - index` of the names and data lists (IndexError when the depth
exceeds the stack), record the read event, return the value, mutating no
stack. -/
def RunContext.peek (c : RunContext V) (name : String) (index : Nat) :
    Except PyError (V × RunContext V) :=
  let s := c.varstack name
  if s.data.length = s.names.length then
    if index < s.names.length then
      match s.names[s.names.length - 1 - index]?,
            s.data[s.data.length - 1 - index]? with
      | some nm, some v => .ok (v, c.on_read nm)
      | _, _ => .error .indexError
    else .error .indexError
  else .error .assertionError

/-- `VarStack.has` (lines 88–90): integrity assert, then
`len(self.data) >= count`; no frozen check, no mutation, no event. -/
def RunContext.has (c : RunContext V) (name : String) (count : Nat) :
    Except PyError (Bool × RunContext V) :=
  let s := c.varstack name
  if s.data.length = s.names.length then .ok (decide (count ≤ s.data.length), c)
  else .error .assertionError

/-- Set the frozen flag of one stack (the two assignments inside
`VarStack.freeze`, lines 49–55). -/
def RunContext.setFrozen (c : RunContext V) (name : String) (b : Bool) :
    RunContext V :=
  c.setStack name { c.varstack name with frozen := b }

/-- The observable contents of one named stack: data, names, frozen flag. -/
def RunContext.dataOf (c : RunContext V) (name : String) : List V :=
  (c.varstacks name).data

/-- The symbolic-name list of one named stack. -/
def RunContext.namesOf (c : RunContext V) (name : String) : List String :=
  (c.varstacks name).names

/-- The frozen flag of one named stack. -/
def RunContext.frozenOf (c : RunContext V) (name : String) : Bool :=
  (c.varstacks name).frozen

/-- The structural invariant `_integrity_check` asserts (lines 46–47), for
every stack of the context. -/
def RunContext.wf (c : RunContext V) : Prop :=
  ∀ name, (c.varstacks name).data.length = (c.varstacks name).names.length

/-- One call of a stack-layer method, used to quantify over call sequences. -/
inductive StackCall (V : Type) where
  | push (name : String) (v : V)
  | pop (name : String)
  | dup (name : String)
  | peek (name : String) (index : Nat)
  | has (name : String) (count : Nat)

/-- Perform one stack-layer call.  A failing call raises its exception; since
every stack-layer exception is raised before any mutation, the state at the
raise is the state before the call. -/
def runCall (c : RunContext V) : StackCall V → RunContext V × Option PyError
  | .push n v =>
    match c.push n v with
    | .ok c2 => (c2, none)
    | .error e => (c, some e)
  | .pop n =>
    match c.pop n with
    | .ok r => (r.2, none)
    | .error e => (c, some e)
  | .dup n =>
    match c.dup n with
    | .ok c2 => (c2, none)
    | .error e => (c, some e)
  | .peek n i =>
    match c.peek n i with
    | .ok r => (r.2, none)
    | .error e => (c, some e)
  | .has n k =>
    match c.has n k with
    | .ok r => (r.2, none)
    | .error e => (c, some e)

/-- Perform a sequence of calls, each attempted from the state the previous
one left (a failing call leaves the state unchanged). -/
def runCalls (c : RunContext V) : List (StackCall V) → RunContext V
  | [] => c
  | k :: ks => runCalls (runCall c k).1 ks

/-- Perform a sequence of calls, stopping at the first raised exception (the
Python control flow inside a `with stack.freeze():` block). -/
def runCallsE (c : RunContext V) : List (StackCall V) → RunContext V × Option PyError
  | [] => (c, none)
  | k :: ks =>
    match runCall c k with
    | (c2, none) => runCallsE c2 ks
    | (c2, some e) => (c2, some e)

/-- `VarStack.freeze` (lines 49–55): set the frozen flag, run the body, and —
in a `finally` — reset the flag on every exit path, normal or raising. -/
def RunContext.withFreeze (c : RunContext V) (name : String)
    (body : List (StackCall V)) : RunContext V × Option PyError :=
  let c1 := c.setFrozen name true
  let r := runCallsE c1 body
  (r.1.setFrozen name false, r.2)

/-- The value `peek(depth)` would return from the current state, as a pure
observation: index `len - 1 - depth` of the stack's data when the depth is in
range. -/
def RunContext.peekValueOpt (c : RunContext V) (name : String) (depth : Nat) :
    Option V :=
  if depth < (c.varstacks name).data.length then
    (c.varstacks name).data[(c.varstacks name).data.length - 1 - depth]?
  else none

/-- The loop of `RunContext.read` (lines 130–136), with the `Counter` carried
as a function from stack names to how many times each has already appeared. -/
def readAux (c : RunContext V) (seen : String → Nat) :
    List String → Except PyError (List V × RunContext V)
  | [] => .ok ([], c)
  | a :: rest =>
    match c.peek a (seen a) with
    | .error e => .error e
    | .ok (v, c1) =>
      match readAux c1 (fun b => if b = a then seen a + 1 else seen b) rest with
      | .error e => .error e
      | .ok (vs, c2) => .ok (v :: vs, c2)

/-- `RunContext.read` (lines 130–136): peek each named stack at a depth equal
to the number of earlier occurrences of that name in the argspec. -/
def RunContext.read (c : RunContext V) (argspec : List String) :
    Except PyError (List V × RunContext V) :=
  readAux c (fun _ => 0) argspec

/-- The Operation capability as the engine consumes it (spec §4.3; the
concrete variants live in the external `operations.py`).  `invoke` returns
the mutated context together with a flag recording whether it raised — the
engine catches every exception uniformly (`except Exception`), and Python's
in-place mutation persists up to the point of the raise, which the returned
context carries. -/
structure Operation (V : Type) where
  applicable : RunContext V → Bool
  invoke : RunContext V → RunContext V × Bool

/-- `run_program` (lines 285–289) with the caller's `try`/`except` made
explicit: invoke each operation in order; a raise stops the run and the flag
records that it happened. -/
def run_programE : RunContext V → List (Operation V) → RunContext V × Bool
  | c, [] => (c, false)
  | c, op :: rest =>
    let r := op.invoke c
    if r.2 then (r.1, true) else run_programE r.1 rest

/-- `program_fails` (lines 291–296): replay from a fresh context and report
whether any invocation raised. -/
def program_fails (program : List (Operation V)) : Bool :=
  (run_programE RunContext.init program).2

/-- The loop of `prune_program` (lines 298–310): skip inapplicable operations,
append then invoke the applicable ones, stop after the first raise keeping the
raising operation. -/
def pruneAux : RunContext V → List (Operation V) → List (Operation V)
  | _, [] => []
  | c, op :: rest =>
    if op.applicable c then
      let r := op.invoke c
      if r.2 then [op] else op :: pruneAux r.1 rest
    else pruneAux c rest

/-- `prune_program` (lines 298–310): replay against a fresh context. -/
def prune_program (program : List (Operation V)) : List (Operation V) :=
  pruneAux RunContext.init program

/-- The context reached by invoking a list of operations in order from a given
context (the replay positions of a pruned program). -/
def replayCtx (c : RunContext V) (l : List (Operation V)) : RunContext V :=
  l.foldl (fun c op => (op.invoke c).1) c

/-- Statement of the pruner's input/output behavior following the
specification's words (§4.5): scanning the candidate sequence left to right
with the replay context, an operation whose `applicable(context)` is false is
dropped — simply omitted, the context unchanged; an applicable operation is
kept and invoked; a raising invocation stops the scan, returning everything
accumulated so far including the raising operation; exhausting the input ends
the scan with everything accumulated. -/
inductive PruneRel : RunContext V → List (Operation V) → List (Operation V) → Prop
  | nil (c : RunContext V) : PruneRel c [] []
  | drop {c : RunContext V} {op : Operation V} {rest out : List (Operation V)}
      (h : op.applicable c = false) (ht : PruneRel c rest out) :
      PruneRel c (op :: rest) out
  | keep {c : RunContext V} {op : Operation V} {rest out : List (Operation V)}
      (h : op.applicable c = true) (hs : (op.invoke c).2 = false)
      (ht : PruneRel (op.invoke c).1 rest out) :
      PruneRel c (op :: rest) (op :: out)
  | stop {c : RunContext V} {op : Operation V} {rest : List (Operation V)}
      (h : op.applicable c = true) (hr : (op.invoke c).2 = true) :
      PruneRel c (op :: rest) [op]

/-- The `for i in xrange(len(current_best))` pass of
`minimize_failing_program` (lines 315–328), from index `i` with `rem`
indices remaining: try deleting the operation at `i`; prune; accept if the
pruned edit still fails; otherwise additionally try the source's secondary
deletion at the same index of the already-shortened edit; otherwise advance. -/
def tryDeletionsFrom (best : List (Operation V)) : Nat → Nat → Option (List (Operation V))
  | 0, _ => none
  | rem + 1, i =>
    let edit := best.eraseIdx i
    let p1 := prune_program edit
    if program_fails p1 then some p1
    else if i < edit.length then
      let edit2 := edit.eraseIdx i
      let p2 := prune_program edit2
      if program_fails p2 then some p2
      else tryDeletionsFrom best rem (i + 1)
    else tryDeletionsFrom best rem (i + 1)

/-- One full pass of the minimizer over the current best program. -/
def fullPass (best : List (Operation V)) : Option (List (Operation V)) :=
  tryDeletionsFrom best best.length 0

/-- The `while True` loop of `minimize_failing_program` (lines 314–330),
bounded by a fuel argument: restart the pass from the beginning whenever a
deletion is accepted; return the current best when a full pass accepts
nothing.  Every accepted deletion strictly shortens the current best (proved
below as `fullPass_some_lt`), so `prog.length + 1` units of fuel — the amount
`minimizeLoop` supplies — always reach the loop's fixed point. -/
def minimizeLoopFuel : Nat → List (Operation V) → List (Operation V)
  | 0, prog => prog
  | fuel + 1, prog =>
    match fullPass prog with
    | none => prog
    | some b => minimizeLoopFuel fuel b

/-- The `while True` loop of `minimize_failing_program` with enough fuel to
reach its fixed point. -/
def minimizeLoop (prog : List (Operation V)) : List (Operation V) :=
  minimizeLoopFuel (prog.length + 1) prog

/-- `minimize_failing_program` (lines 312–330), with the entry
`assert self.program_fails(program)` modeled as `none` (AssertionError) when
the precondition fails. -/
def minimize_failing_program (program : List (Operation V)) :
    Option (List (Operation V)) :=
  if program_fails program then some (minimizeLoop program) else none

/-- The `ProgramStep` namedtuple (lines 19–22). -/
structure ProgramStep (V : Type) where
  definitions : List String
  arguments : List String
  operation : Operation V

/-- The loop of `annotate_program` (lines 332–354): reset the logs, invoke,
record a step whose definitions are the write log (empty if the step raised)
and whose arguments are the read log, and stop after the first raising step,
its record included. -/
def annotateAux : RunContext V → List (Operation V) → List (ProgramStep V)
  | _, [] => []
  | c, op :: rest =>
    let r := op.invoke c.reset_tracking
    let step : ProgramStep V :=
      ⟨if r.2 then [] else r.1.values_written, r.1.values_read, op⟩
    if r.2 then [step] else step :: annotateAux r.1 rest

/-- `annotate_program` (lines 332–354): replay against a fresh context. -/
def annotate_program (program : List (Operation V)) : List (ProgramStep V) :=
  annotateAux RunContext.init program

/-- The per-step contexts and raise flags of the annotator's replay: step `i`
invokes operation `i` on the log-reset previous context; the list continues
past a failure only hypothetically, so that statements can speak about "the
first failing step". -/
def replayAnn : RunContext V → List (Operation V) → List (RunContext V × Bool)
  | _, [] => []
  | c, op :: rest =>
    let r := op.invoke c.reset_tracking
    r :: replayAnn r.1 rest

/-- Statement of the annotator's output following the specification's words:
one record per executed step, pairing each operation with the post-step write
log as its definitions (empty when the step raised) and the post-step read
log as its arguments, emitting no record beyond the first raising step. -/
def annSpecRecords : List (Operation V) → List (RunContext V × Bool) → List (ProgramStep V)
  | op :: ops, r :: rest =>
    ⟨if r.2 then [] else r.1.values_written, r.1.values_read, op⟩ ::
      (if r.2 then [] else annSpecRecords ops rest)
  | _, _ => []

/-- The search driver's error (`NoFailingProgram`, lines 34–35 and 278–282),
carrying the bounds the raise site reports. -/
inductive SearchError where
  | noFailingProgram (prog_length n_iters : Nat)
deriving DecidableEq

/-- The message `find_failing_program` formats into the exception
(lines 279–282). -/
def SearchError.message : SearchError → String
  | .noFailingProgram pl ni =>
    "Unable to find a failing program of length <= " ++ toString pl ++
      " after " ++ toString ni ++ " iterations"

/-- The best-example update of `find_failing_program` (lines 269–273): a new
failing example replaces the best only when the best is absent or the new one
is strictly shorter. -/
def updateBest (best : Option (List (Operation V))) (p : List (Operation V)) :
    List (Operation V) :=
  match best with
  | none => p
  | some b => if p.length < b.length then p else b

/-- One trial's inner loop (lines 262–277): up to `fuel` more steps, generate
an operation from the current context (the generator also receives the step
index, standing for the advancing state of the context's unseeded RNG),
append it to the program, invoke it; a raise ends the trial returning the
program truncated at — and including — the raising step; running out of steps
ends the trial with no failing example. -/
def runTrial (gen : Nat → RunContext V → Operation V) :
    RunContext V → Nat → Nat → List (Operation V) → Option (List (Operation V))
  | _, _, 0, _ => none
  | c, s, fuel + 1, acc =>
    let op := gen s c
    let acc2 := acc ++ [op]
    let r := op.invoke c
    if r.2 then some acc2 else runTrial gen r.1 (s + 1) fuel acc2

/-- The outcome of trial `t`: its failing example, if the trial failed.  Each
trial starts from a fresh `RunContext()`; the trial index models that trial's
freshly constructed unseeded `Random()`. -/
def trialOutcome (gen : Nat → Nat → RunContext V → Operation V)
    (prog_length t : Nat) : Option (List (Operation V)) :=
  runTrial (gen t) RunContext.init 0 prog_length []

/-- The hypothetical full step trace of one trial: every step's operation and
raise flag, continued past failures (only the prefix up to the first raise is
realized by `runTrial`). -/
def trialSteps (gen : Nat → RunContext V → Operation V) :
    RunContext V → Nat → Nat → List (Operation V × Bool)
  | _, _, 0 => []
  | c, s, n + 1 =>
    let op := gen s c
    let r := op.invoke c
    (op, r.2) :: trialSteps gen r.1 (s + 1) n

/-- The trial loop of `find_failing_program` (lines 256–283), with `rem`
trials remaining, `t` the index of the next trial (modeling its fresh
unseeded RNG), `found` the cumulative failure counter and `best` the best
example so far: when a trial fails, count it, update the best, and return the
best as soon as the counter reaches `good_enough`; when the trials are
exhausted, raise `NoFailingProgram` if nothing ever failed. -/
def searchLoop (gen : Nat → Nat → RunContext V → Operation V)
    (prog_length good_enough n_iters : Nat) :
    Nat → Nat → Nat → Option (List (Operation V)) →
      Except SearchError (List (Operation V))
  | 0, _, _, best =>
    match best with
    | none => .error (.noFailingProgram prog_length n_iters)
    | some b => .ok b
  | rem + 1, t, found, best =>
    match runTrial (gen t) RunContext.init 0 prog_length [] with
    | none => searchLoop gen prog_length good_enough n_iters rem (t + 1) found best
    | some p =>
      let best2 := updateBest best p
      if good_enough ≤ found + 1 then .ok best2
      else searchLoop gen prog_length good_enough n_iters rem (t + 1) (found + 1)
        (some best2)

/-- `find_failing_program` (lines 253–283). -/
def find_failing_program (gen : Nat → Nat → RunContext V → Operation V)
    (n_iters prog_length good_enough : Nat) :
    Except SearchError (List (Operation V)) :=
  searchLoop gen prog_length good_enough n_iters n_iters 0 0 none

/-- The failing examples the trials would record, in trial order. -/
def failuresList (gen : Nat → Nat → RunContext V → Operation V)
    (n_iters prog_length : Nat) : List (List (Operation V)) :=
  (List.range n_iters).filterMap (trialOutcome gen prog_length)

/-- Fold the best-example update over a list of failing examples. -/
def bestAcc (best : Option (List (Operation V)))
    (l : List (List (Operation V))) : Option (List (Operation V)) :=
  l.foldl (fun acc p => some (updateBest acc p)) best

/-- Instrumentation of the trial loop: how many trials `find_failing_program`
executes before returning (each iteration of `for _ in xrange(self.n_iters)`
that begins counts as one trial). -/
def searchTrialCount (gen : Nat → Nat → RunContext V → Operation V)
    (prog_length good_enough : Nat) :
    Nat → Nat → Nat → Option (List (Operation V)) → Nat
  | 0, _, _, _ => 0
  | rem + 1, t, found, best =>
    match trialOutcome gen prog_length t with
    | none => 1 + searchTrialCount gen prog_length good_enough rem (t + 1) found best
    | some p =>
      if good_enough ≤ found + 1 then 1
      else 1 + searchTrialCount gen prog_length good_enough rem (t + 1) (found + 1)
        (some (updateBest best p))

/-- `TestMachine.__init__` (lines 140–149): the complete set of caller-facing
configuration options the engine recognizes, with the source's defaults.
There is no RNG or seed option. -/
structure TestMachineConfig where
  n_iters : Nat := 500
  prog_length : Nat := 200
  good_enough : Nat := 10
deriving DecidableEq

/-- Run the search under a configuration (`self.n_iters` etc. in
`find_failing_program`). -/
def findWithConfig (cfg : TestMachineConfig)
    (gen : Nat → Nat → RunContext V → Operation V) :
    Except SearchError (List (Operation V)) :=
  find_failing_program gen cfg.n_iters cfg.prog_length cfg.good_enough

/-- A concrete operation whose invocation always raises. -/
def opFail : Operation Nat :=
  { applicable := fun _ => true, invoke := fun c => (c, true) }

/-- A concrete operation whose invocation never raises and changes nothing. -/
def opSafe : Operation Nat :=
  { applicable := fun _ => true, invoke := fun c => (c, false) }

/-- Modelled from the spec: the Choice Combinator (`ChooseFrom`, defined in
the repository's `operations.py`, which is not under `src/`) — "given a
weighted set of Operation generators, produces one concrete Operation per
step" (§2, §6), where `generate(context)` "may consult RNG state reachable
via context" (§4.3).  The RNG it consults is the freshly constructed unseeded
`Random()` of `RunContext.__init__` (src line 95); that ambient randomness is
modeled as an explicit stream of draws indexed by trial and step, and the
draw selects among the registered operations. -/
def chooseFromGen (langs : List (Operation V)) (defaultOp : Operation V)
    (ambient : Nat → Nat → Nat) : Nat → Nat → RunContext V → Operation V :=
  fun t s _ => langs.getD (ambient t s) defaultOp

/-- A generator stream that always yields the always-raising operation. -/
def genAllFail : Nat → Nat → RunContext Nat → Operation Nat := fun _ _ _ => opFail

/-- A generator stream that always yields the never-raising operation. -/
def genAllSafe : Nat → Nat → RunContext Nat → Operation Nat := fun _ _ _ => opSafe

/-! ### Stack-layer lemmas -/

theorem push_of_frozen {c : RunContext V} {n : String} (v : V)
    (h : (c.varstacks n).frozen = true) : c.push n v = .error .frozenVarStack := by
  simp [RunContext.push, RunContext.varstack, h]

theorem pop_of_frozen {c : RunContext V} {n : String}
    (h : (c.varstacks n).frozen = true) : c.pop n = .error .frozenVarStack := by
  simp [RunContext.pop, RunContext.varstack, h]

theorem dup_of_frozen {c : RunContext V} {n : String}
    (h : (c.varstacks n).frozen = true) : c.dup n = .error .frozenVarStack := by
  simp [RunContext.dup, RunContext.varstack, h]

theorem peek_ne_frozenErr (c : RunContext V) (n : String) (i : Nat) :
    c.peek n i ≠ .error .frozenVarStack := by
  simp only [RunContext.peek]
  split
  · split
    · split <;> simp
    · simp
  · simp

theorem has_ne_frozenErr (c : RunContext V) (n : String) (k : Nat) :
    c.has n k ≠ .error .frozenVarStack := by
  simp only [RunContext.has]
  split <;> simp

theorem push_ok_stackFacts {c c2 : RunContext V} {n : String} {v : V}
    (h : c.push n v = .ok c2) :
    ∀ m, (c2.varstacks m).frozen = (c.varstacks m).frozen ∧
      ((c.varstacks m).data.length = (c.varstacks m).names.length →
        (c2.varstacks m).data.length = (c2.varstacks m).names.length) := by
  simp only [RunContext.push, RunContext.varstack] at h
  split at h
  · simp at h
  · split at h
    · rename_i hlen
      injection h with h
      subst h
      intro m
      simp only [RunContext.on_write, RunContext.setStack, RunContext.newvar]
      by_cases hm : m = n
      · subst hm; simp [hlen]
      · simp [hm]
    · simp at h

theorem pop_ok_stackFacts {c : RunContext V} {n : String} {r : V × RunContext V}
    (h : c.pop n = .ok r) :
    ∀ m, (r.2.varstacks m).frozen = (c.varstacks m).frozen ∧
      ((c.varstacks m).data.length = (c.varstacks m).names.length →
        (r.2.varstacks m).data.length = (r.2.varstacks m).names.length) := by
  simp only [RunContext.pop, RunContext.varstack] at h
  split at h
  · simp at h
  · split at h
    · rename_i hlen
      split at h
      · injection h with h
        subst h
        intro m
        simp only [RunContext.on_read, RunContext.setStack]
        by_cases hm : m = n
        · subst hm; simp [List.length_dropLast, hlen]
        · simp [hm]
      · simp at h
    · simp at h

theorem dup_ok_stackFacts {c c2 : RunContext V} {n : String}
    (h : c.dup n = .ok c2) :
    ∀ m, (c2.varstacks m).frozen = (c.varstacks m).frozen ∧
      ((c.varstacks m).data.length = (c.varstacks m).names.length →
        (c2.varstacks m).data.length = (c2.varstacks m).names.length) := by
  simp only [RunContext.dup, RunContext.varstack] at h
  split at h
  · simp at h
  · split at h
    · rename_i hlen
      split at h
      · injection h with h
        subst h
        intro m
        simp only [RunContext.setStack]
        by_cases hm : m = n
        · subst hm; simp [hlen]
        · simp [hm]
      · simp at h
    · simp at h

theorem peek_ok_facts {c : RunContext V} {n : String} {i : Nat}
    {r : V × RunContext V} (h : c.peek n i = .ok r) :
    r.2.varstacks = c.varstacks ∧ c.peekValueOpt n i = some r.1 := by
  simp only [RunContext.peek, RunContext.varstack] at h
  split at h
  · rename_i hlen
    split at h
    · rename_i hidx
      split at h
      · rename_i nm v hnm hv
        injection h with h
        subst h
        refine ⟨rfl, ?_⟩
        simp only [RunContext.peekValueOpt]
        rw [if_pos (by omega)]
        simpa using hv
      · simp at h
    · simp at h
  · simp at h

theorem has_ok_facts {c : RunContext V} {n : String} {k : Nat}
    {r : Bool × RunContext V} (h : c.has n k = .ok r) :
    r.2 = c ∧ r.1 = decide (k ≤ (c.varstacks n).data.length) := by
  simp only [RunContext.has, RunContext.varstack] at h
  split at h
  · injection h with h
    subst h
    exact ⟨rfl, rfl⟩
  · simp at h

theorem runCall_frozenOf (c : RunContext V) (k : StackCall V) (m : String) :
    (((runCall c k).1).varstacks m).frozen = (c.varstacks m).frozen := by
  cases k with
  | push n v =>
    simp only [runCall]
    split
    · rename_i c2 h; exact (push_ok_stackFacts h m).1
    · rfl
  | pop n =>
    simp only [runCall]
    split
    · rename_i r h; exact (pop_ok_stackFacts h m).1
    · rfl
  | dup n =>
    simp only [runCall]
    split
    · rename_i c2 h; exact (dup_ok_stackFacts h m).1
    · rfl
  | peek n i =>
    simp only [runCall]
    split
    · rename_i r h; rw [(peek_ok_facts h).1]
    · rfl
  | has n cnt =>
    simp only [runCall]
    split
    · rename_i r h; rw [(has_ok_facts h).1]
    · rfl

theorem runCall_wf {c : RunContext V} (hwf : c.wf) (k : StackCall V) :
    ((runCall c k).1).wf := by
  cases k with
  | push n v =>
    simp only [runCall]
    split
    · rename_i c2 h; exact fun m => (push_ok_stackFacts h m).2 (hwf m)
    · exact hwf
  | pop n =>
    simp only [runCall]
    split
    · rename_i r h; exact fun m => (pop_ok_stackFacts h m).2 (hwf m)
    · exact hwf
  | dup n =>
    simp only [runCall]
    split
    · rename_i c2 h; exact fun m => (dup_ok_stackFacts h m).2 (hwf m)
    · exact hwf
  | peek n i =>
    simp only [runCall]
    split
    · rename_i r h; intro m; rw [(peek_ok_facts h).1]; exact hwf m
    · exact hwf
  | has n cnt =>
    simp only [runCall]
    split
    · rename_i r h; intro m; rw [(has_ok_facts h).1]; exact hwf m
    · exact hwf

theorem init_wf : (RunContext.init : RunContext V).wf :=
  fun _ => rfl

theorem runCalls_wf {c : RunContext V} (hwf : c.wf) (calls : List (StackCall V)) :
    (runCalls c calls).wf := by
  induction calls generalizing c with
  | nil => exact hwf
  | cons k ks ih => exact ih (runCall_wf hwf k)

theorem runCallsE_frozenOf (c : RunContext V) (body : List (StackCall V)) (m : String) :
    (((runCallsE c body).1).varstacks m).frozen = (c.varstacks m).frozen := by
  induction body generalizing c with
  | nil => rfl
  | cons k ks ih =>
    simp only [runCallsE]
    split
    · rename_i c2 h
      have h1 := runCall_frozenOf c k m
      rw [h] at h1
      rw [ih c2, h1]
    · rename_i c2 e h
      have h1 := runCall_frozenOf c k m
      rw [h] at h1
      exact h1

theorem runCallsE_wf {c : RunContext V} (hwf : c.wf) (body : List (StackCall V)) :
    ((runCallsE c body).1).wf := by
  induction body generalizing c with
  | nil => exact hwf
  | cons k ks ih =>
    simp only [runCallsE]
    split
    · rename_i c2 h
      have h1 := runCall_wf hwf k
      rw [h] at h1
      exact ih h1
    · rename_i c2 e h
      have h1 := runCall_wf hwf k
      rw [h] at h1
      exact h1

theorem setFrozen_varstacks (c : RunContext V) (n : String) (b : Bool) (m : String) :
    ((c.setFrozen n b).varstacks m) =
      if m = n then { c.varstacks n with frozen := b } else c.varstacks m := by
  simp [RunContext.setFrozen, RunContext.setStack, RunContext.varstack]

theorem setFrozen_wf {c : RunContext V} (hwf : c.wf) (n : String) (b : Bool) :
    (c.setFrozen n b).wf := by
  intro m
  rw [setFrozen_varstacks]
  by_cases hm : m = n
  · simp [hm]; exact hwf n
  · simp [hm]; exact hwf m

theorem push_ok_of_unfrozen {c : RunContext V} {n : String}
    (hfz : (c.varstacks n).frozen = false)
    (hlen : (c.varstacks n).data.length = (c.varstacks n).names.length) (v : V) :
    ∃ c2, c.push n v = .ok c2 := by
  simp [RunContext.push, RunContext.varstack, hfz, hlen]

/-! ### Claims about the stack layer: C5, C6, C10 -/

/-- C5: while inside a freeze scope of a named stack, every `push`, `pop` or
`dup` on it fails with the frozen-stack error, and `peek`/`has` never fail
with it; entering the scope sets the frozen flag, no stack call changes any
frozen flag, and on every exit path of the scope — normal or raising — the
flag is reset to `false`, after which the stack accepts mutations again. -/
theorem claim_C5 :
    (∀ (V : Type) (c : RunContext V) (name : String) (v : V),
        c.frozenOf name = true →
          c.push name v = .error .frozenVarStack ∧
          c.pop name = .error .frozenVarStack ∧
          c.dup name = .error .frozenVarStack) ∧
    (∀ (V : Type) (c : RunContext V) (name : String) (i count : Nat),
        c.peek name i ≠ .error .frozenVarStack ∧
        c.has name count ≠ .error .frozenVarStack) ∧
    (∀ (V : Type) (c : RunContext V) (name : String),
        (c.setFrozen name true).frozenOf name = true) ∧
    (∀ (V : Type) (c : RunContext V) (k : StackCall V) (m : String),
        ((runCall c k).1).frozenOf m = c.frozenOf m) ∧
    (∀ (V : Type) (c : RunContext V) (name : String) (body : List (StackCall V)),
        ((c.withFreeze name body).1).frozenOf name = false) ∧
    (∀ (V : Type) (c : RunContext V) (name : String) (body : List (StackCall V))
        (v : V), c.wf → ∃ c2, ((c.withFreeze name body).1).push name v = .ok c2) := by
  refine ⟨?_, ?_, ?_, ?_, ?_, ?_⟩
  · intro V c name v h
    exact ⟨push_of_frozen v h, pop_of_frozen h, dup_of_frozen h⟩
  · intro V c name i count
    exact ⟨peek_ne_frozenErr c name i, has_ne_frozenErr c name count⟩
  · intro V c name
    simp [RunContext.frozenOf, setFrozen_varstacks]
  · intro V c k m
    exact runCall_frozenOf c k m
  · intro V c name body
    simp only [RunContext.withFreeze, RunContext.frozenOf]
    rw [setFrozen_varstacks]
    simp
  · intro V c name body v hwf
    have hwf2 : ((c.withFreeze name body).1).wf := by
      simp only [RunContext.withFreeze]
      exact setFrozen_wf (runCallsE_wf (setFrozen_wf hwf name true) body) name false
    have hfz : (((c.withFreeze name body).1).varstacks name).frozen = false := by
      simp only [RunContext.withFreeze]
      rw [setFrozen_varstacks]
      simp
    exact push_ok_of_unfrozen hfz (hwf2 name) v

/-- Witness for C5: on a concretely frozen stack all three mutators fail with
the frozen-stack error, and after a freeze scope whose body raised, `push`
succeeds again. -/
theorem claim_C5_witness :
    ((RunContext.init : RunContext Nat).setFrozen "A" true).push "A" 5 =
        .error .frozenVarStack ∧
    ((RunContext.init : RunContext Nat).setFrozen "A" true).pop "A" =
        .error .frozenVarStack ∧
    ((RunContext.init : RunContext Nat).setFrozen "A" true).dup "A" =
        .error .frozenVarStack ∧
    ∃ c2, (((RunContext.init : RunContext Nat).withFreeze "A"
        [StackCall.pop "A"]).1).push "A" 5 = .ok c2 :=
  ⟨(claim_C5.1 Nat _ "A" 5 (by decide)).1,
   (claim_C5.1 Nat _ "A" 5 (by decide)).2.1,
   (claim_C5.1 Nat _ "A" 5 (by decide)).2.2,
   claim_C5.2.2.2.2.2 Nat RunContext.init "A" [StackCall.pop "A"] 5 init_wf⟩

/-- C6: the length invariant `len(values) == len(names)` of every named stack
holds in a fresh context, is preserved by every stack-layer call — successful
or failing — and therefore holds after every call of every call sequence. -/
theorem claim_C6 :
    (∀ V : Type, (RunContext.init : RunContext V).wf) ∧
    (∀ (V : Type) (c : RunContext V) (k : StackCall V), c.wf → ((runCall c k).1).wf) ∧
    (∀ (V : Type) (calls : List (StackCall V)), (runCalls RunContext.init calls).wf) :=
  ⟨fun _ => init_wf,
   fun _ _ k hwf => runCall_wf hwf k,
   fun _ calls => runCalls_wf init_wf calls⟩

/-- Witness for C6: the invariant after one concrete push. -/
theorem claim_C6_witness :
    ((runCall (RunContext.init : RunContext Nat) (StackCall.push "A" 0)).1).wf :=
  claim_C6.2.1 Nat RunContext.init (StackCall.push "A" 0) (claim_C6.1 Nat)

/-- C10: on an empty, unfrozen named stack, `peek 0` and `dup` raise the
unguarded `IndexError` — which is not a `TestMachineError` — while
`has count` never raises and returns `false` for every `count ≥ 1`. -/
theorem claim_C10 :
    ∀ (V : Type) (c : RunContext V) (name : String),
      c.dataOf name = [] → c.namesOf name = [] → c.frozenOf name = false →
        c.peek name 0 = .error .indexError ∧
        c.dup name = .error .indexError ∧
        PyError.indexError.isTestMachineError = false ∧
        PyError.frozenVarStack.isTestMachineError = true ∧
        ∀ count : Nat, 1 ≤ count → c.has name count = .ok (false, c) := by
  intro V c name hd hn hf
  simp only [RunContext.dataOf] at hd
  simp only [RunContext.namesOf] at hn
  simp only [RunContext.frozenOf] at hf
  refine ⟨?_, ?_, rfl, rfl, ?_⟩
  · simp [RunContext.peek, RunContext.varstack, hd, hn]
  · simp [RunContext.dup, RunContext.varstack, hd, hn, hf]
  · intro count hc
    have h0 : ¬ count ≤ 0 := by omega
    simp [RunContext.has, RunContext.varstack, hd, hn, h0]

/-! ### C7: `read` peeks at repeat-aware depths without mutating stacks -/

theorem peekValueOpt_eq_of {c c' : RunContext V} (h : c'.varstacks = c.varstacks)
    (n : String) (d : Nat) : c'.peekValueOpt n d = c.peekValueOpt n d := by
  simp [RunContext.peekValueOpt, h]

theorem peek_isOk_of {c : RunContext V} {n : String} {d : Nat}
    (hlen : (c.varstacks n).data.length = (c.varstacks n).names.length)
    (hd : d < (c.varstacks n).names.length) :
    ∃ v c1, c.peek n d = .ok (v, c1) ∧ c1.varstacks = c.varstacks := by
  simp only [RunContext.peek, RunContext.varstack]
  rw [if_pos hlen, if_pos hd]
  have h1 : (c.varstacks n).names.length - 1 - d < (c.varstacks n).names.length := by
    omega
  have h2 : (c.varstacks n).data.length - 1 - d < (c.varstacks n).data.length := by
    omega
  rw [List.getElem?_eq_getElem h1, List.getElem?_eq_getElem h2]
  exact ⟨_, _, rfl, rfl⟩

theorem readAux_spec :
    ∀ (argspec : List String) (c : RunContext V) (seen : String → Nat)
      (vs : List V) (c' : RunContext V), readAux c seen argspec = .ok (vs, c') →
      c'.varstacks = c.varstacks ∧ vs.length = argspec.length ∧
      ∀ (i : Nat) (hi : i < argspec.length) (hv : i < vs.length),
        c.peekValueOpt argspec[i]
            (seen argspec[i] + (argspec.take i).count argspec[i]) = some vs[i] := by
  intro argspec
  induction argspec with
  | nil =>
    intro c seen vs c' h
    simp only [readAux] at h
    injection h with h
    injection h with h1 h2
    subst h1; subst h2
    exact ⟨rfl, rfl, fun i hi => absurd hi (by simp)⟩
  | cons a rest ih =>
    intro c seen vs c' h
    simp only [readAux] at h
    split at h
    · exact absurd h (by simp)
    · rename_i v c1 hpeek
      split at h
      · exact absurd h (by simp)
      · rename_i vs2 c2 hrest
        injection h with h
        injection h with h1 h2
        subst h1; subst h2
        obtain ⟨hvs1, hval1⟩ := peek_ok_facts hpeek
        obtain ⟨hvs2, hlen2, hvals2⟩ := ih c1 _ vs2 c2 hrest
        refine ⟨hvs2.trans hvs1, by simpa using hlen2, ?_⟩
        intro i hi hv
        match i with
        | 0 => simpa using hval1
        | j + 1 =>
          have hj : j < rest.length := by simpa using hi
          have hjv : j < vs2.length := by simpa using hv
          have hre := hvals2 j hj hjv
          rw [peekValueOpt_eq_of hvs1] at hre
          simp only [List.getElem_cons_succ, List.take_succ_cons, List.count_cons]
          rw [← hre]
          congr 1
          by_cases hb : rest[j] = a
          · simp [hb, beq_iff_eq]
            all_goals omega
          · have hb2 : ¬ a = rest[j] := fun hh => hb hh.symm
            simp [hb, hb2, beq_iff_eq]

/-- C7: `read(argspec)` returns one value per entry, obtained by peeking the
named stack at a depth equal to the number of earlier occurrences of that
name in the argspec, and mutates no stack; in particular `read(["A","A"])` on
a stack `A` whose top two values are `x` below `y` returns `(y, x)` and
leaves every stack unchanged. -/
theorem claim_C7 :
    (∀ (V : Type) (c : RunContext V) (argspec : List String) (vs : List V)
        (c' : RunContext V), c.read argspec = .ok (vs, c') →
        vs.length = argspec.length ∧ c'.varstacks = c.varstacks ∧
        ∀ (i : Nat) (hi : i < argspec.length) (hv : i < vs.length),
          c.peekValueOpt argspec[i] ((argspec.take i).count argspec[i]) =
            some vs[i]) ∧
    (∀ (V : Type) (c : RunContext V) (x y : V) (l : List V) (ns : List String)
        (fz : Bool), c.varstacks "A" = ⟨l ++ [x, y], ns, fz⟩ →
        ns.length = l.length + 2 →
        ∃ c', c.read ["A", "A"] = .ok ([y, x], c') ∧
          c'.varstacks = c.varstacks) := by
  constructor
  · intro V c argspec vs c' h
    obtain ⟨h1, h2, h3⟩ := readAux_spec argspec c (fun _ => 0) vs c' h
    exact ⟨h2, h1, fun i hi hv => by simpa using h3 i hi hv⟩
  · intro V c x y l ns fz hstack hns
    have hlen : (c.varstacks "A").data.length = (c.varstacks "A").names.length := by
      rw [hstack]; simp; omega
    have hd0 : 0 < (c.varstacks "A").names.length := by rw [hstack]; simp; omega
    obtain ⟨v1, c1, hpeek1, hvs1⟩ := peek_isOk_of hlen hd0
    have hval1 : c.peekValueOpt "A" 0 = some v1 := (peek_ok_facts hpeek1).2
    have hy : c.peekValueOpt "A" 0 = some y := by
      simp only [RunContext.peekValueOpt, hstack]
      rw [if_pos (by simp)]
      rw [show (l ++ [x, y]).length - 1 - 0 = l.length + 1 by
        simp only [List.length_append, List.length_cons, List.length_nil]; omega]
      rw [List.getElem?_append_right (by omega)]
      simp
    have hv1y : v1 = y := by
      have := hy.symm.trans hval1
      exact (Option.some.inj this).symm
    have hlen1 : (c1.varstacks "A").data.length = (c1.varstacks "A").names.length := by
      rw [hvs1]; exact hlen
    have hd1 : 1 < (c1.varstacks "A").names.length := by
      rw [hvs1, hstack]; simp; omega
    obtain ⟨v2, c2, hpeek2, hvs2⟩ := peek_isOk_of hlen1 hd1
    have hval2 : c1.peekValueOpt "A" 1 = some v2 := (peek_ok_facts hpeek2).2
    have hx : c1.peekValueOpt "A" 1 = some x := by
      rw [peekValueOpt_eq_of hvs1]
      simp only [RunContext.peekValueOpt, hstack]
      rw [if_pos (by simp)]
      rw [show (l ++ [x, y]).length - 1 - 1 = l.length by
        simp only [List.length_append, List.length_cons, List.length_nil]; omega]
      rw [List.getElem?_append_right (by omega)]
      simp
    have hv2x : v2 = x := by
      have := hx.symm.trans hval2
      exact (Option.some.inj this).symm
    refine ⟨c2, ?_, hvs2.trans hvs1⟩
    simp [RunContext.read, readAux, hpeek1, hpeek2, hv1y, hv2x]

/-- Witness for C7: a concrete two-element stack read through the theorem. -/
theorem claim_C7_witness :
    (RunContext.mk
        (fun n => if n = "A" then ⟨[10, 20], ["t1", "t2"], false⟩ else ⟨[], [], false⟩)
        2 [] [] : RunContext Nat).read ["A", "A"] =
      .ok ([20, 10], RunContext.mk
        (fun n => if n = "A" then ⟨[10, 20], ["t1", "t2"], false⟩ else ⟨[], [], false⟩)
        2 ["t2", "t1"] []) ∧
    ([20, 10] : List Nat).length = (["A", "A"] : List String).length :=
  ⟨by rfl,
   (claim_C7.1 Nat
      (RunContext.mk
        (fun n => if n = "A" then ⟨[10, 20], ["t1", "t2"], false⟩ else ⟨[], [], false⟩)
        2 [] []) ["A", "A"] [20, 10]
      (RunContext.mk
        (fun n => if n = "A" then ⟨[10, 20], ["t1", "t2"], false⟩ else ⟨[], [], false⟩)
        2 ["t2", "t1"] []) (by rfl)).1⟩

/-- Witness for C10 at a fresh context's stack. -/
theorem claim_C10_witness :
    (RunContext.init : RunContext Nat).peek "A" 0 = .error .indexError ∧
    (RunContext.init : RunContext Nat).dup "A" = .error .indexError ∧
    (RunContext.init : RunContext Nat).has "A" 1 = .ok (false, RunContext.init) :=
  ⟨(claim_C10 Nat RunContext.init "A" rfl rfl rfl).1,
   (claim_C10 Nat RunContext.init "A" rfl rfl rfl).2.1,
   (claim_C10 Nat RunContext.init "A" rfl rfl rfl).2.2.2.2 1 (by decide)⟩

/-! ### C2: pruning replays validly and stops at the first failure -/

theorem replayCtx_nil (c : RunContext V) : replayCtx c [] = c := rfl

theorem replayCtx_cons (c : RunContext V) (op : Operation V) (l : List (Operation V)) :
    replayCtx c (op :: l) = replayCtx (op.invoke c).1 l := rfl

theorem pruneAux_spec (l : List (Operation V)) :
    ∀ c : RunContext V,
      (pruneAux c l).Sublist l ∧
      (∀ (i : Nat) (hi : i < (pruneAux c l).length),
          ((pruneAux c l)[i]).applicable (replayCtx c ((pruneAux c l).take i)) = true) ∧
      (∀ (i : Nat) (hi : i < (pruneAux c l).length),
          i + 1 < (pruneAux c l).length →
          (((pruneAux c l)[i]).invoke (replayCtx c ((pruneAux c l).take i))).2 = false) := by
  induction l with
  | nil =>
    intro c
    exact ⟨List.Sublist.refl _, fun i hi => absurd hi (by simp [pruneAux]),
      fun i hi => absurd hi (by simp [pruneAux])⟩
  | cons op rest ih =>
    intro c
    have heq : pruneAux c (op :: rest) =
        if op.applicable c then
          (if (op.invoke c).2 then [op] else op :: pruneAux (op.invoke c).1 rest)
        else pruneAux c rest := rfl
    by_cases hap : op.applicable c = true
    · by_cases hr : (op.invoke c).2 = true
      · rw [heq, if_pos hap, if_pos hr]
        refine ⟨(List.nil_sublist rest).cons₂ op, ?_, ?_⟩
        · intro i hi
          match i with
          | 0 => simpa using hap
          | j + 1 => exact absurd hi (by simp)
        · intro i hi hlast
          simp only [List.length_cons, List.length_nil] at hlast
          omega
      · rw [heq, if_pos hap, if_neg hr]
        simp only [Bool.not_eq_true] at hr
        obtain ⟨ihs, iha, ihf⟩ := ih (op.invoke c).1
        refine ⟨ihs.cons₂ op, ?_, ?_⟩
        · intro i hi
          match i with
          | 0 => simpa using hap
          | j + 1 =>
            have hj : j < (pruneAux (op.invoke c).1 rest).length := by simpa using hi
            have hgoal := iha j hj
            simpa [replayCtx_cons] using hgoal
        · intro i hi hlast
          match i with
          | 0 => simpa using hr
          | j + 1 =>
            have hj : j < (pruneAux (op.invoke c).1 rest).length := by simpa using hi
            have hjl : j + 1 < (pruneAux (op.invoke c).1 rest).length := by
              simpa using hlast
            have hgoal := ihf j hj hjl
            simpa [replayCtx_cons] using hgoal
    · rw [heq, if_neg hap]
      obtain ⟨ihs, iha, ihf⟩ := ih c
      exact ⟨ihs.cons op, iha, ihf⟩

theorem pruneAux_rel (l : List (Operation V)) :
    ∀ c : RunContext V, PruneRel c l (pruneAux c l) := by
  induction l with
  | nil => intro c; exact PruneRel.nil c
  | cons op rest ih =>
    intro c
    have heq : pruneAux c (op :: rest) =
        if op.applicable c then
          (if (op.invoke c).2 then [op] else op :: pruneAux (op.invoke c).1 rest)
        else pruneAux c rest := rfl
    by_cases hap : op.applicable c = true
    · by_cases hr : (op.invoke c).2 = true
      · rw [heq, if_pos hap, if_pos hr]
        exact PruneRel.stop hap hr
      · rw [heq, if_pos hap, if_neg hr]
        exact PruneRel.keep hap (by simpa using hr) (ih _)
    · rw [heq, if_neg hap]
      exact PruneRel.drop (by simpa using hap) (ih c)

/-- C2: `prune_program` replays its input against a fresh context and returns
a subsequence of it; every operation it keeps had `applicable` true at its
replay position (the context reached by invoking the earlier kept operations
from a fresh context), and every kept operation except possibly the last
invoked without raising.  Moreover the result is fully characterized by the
spec-worded scan `PruneRel` from a fresh context: inapplicable operations are
dropped with the context unchanged, applicable ones are kept and invoked in
order, and the first raising invocation stops the scan, the result being
everything accumulated so far including the raising operation. -/
theorem claim_C2 :
    ∀ (V : Type) (prog : List (Operation V)),
      (prune_program prog).Sublist prog ∧
      (∀ (i : Nat) (hi : i < (prune_program prog).length),
          ((prune_program prog)[i]).applicable
            (replayCtx RunContext.init ((prune_program prog).take i)) = true) ∧
      (∀ (i : Nat) (hi : i < (prune_program prog).length),
          i + 1 < (prune_program prog).length →
          (((prune_program prog)[i]).invoke
            (replayCtx RunContext.init ((prune_program prog).take i))).2 = false) ∧
      PruneRel RunContext.init prog (prune_program prog) := by
  intro V prog
  obtain ⟨h1, h2, h3⟩ := pruneAux_spec prog (RunContext.init : RunContext V)
  exact ⟨h1, h2, h3, pruneAux_rel prog RunContext.init⟩

/-- Witness for C2: a concrete one-operation failing program is kept whole by
pruning, its kept operation was applicable at its replay position, and the
spec-worded scan relates the concrete input to the concrete result. -/
theorem claim_C2_witness :
    (prune_program [opFail]).Sublist [opFail] ∧
    ([opFail][0]).applicable (replayCtx RunContext.init ([opFail].take 0)) = true ∧
    PruneRel RunContext.init [opFail] (prune_program [opFail]) :=
  ⟨(claim_C2 Nat [opFail]).1, (claim_C2 Nat [opFail]).2.1 0 (by decide),
   (claim_C2 Nat [opFail]).2.2.2⟩

/-! ### C1: the minimizer returns a failing fixed point no longer than its input -/

theorem prune_length_le (l : List (Operation V)) :
    (prune_program l).length ≤ l.length :=
  (pruneAux_spec l RunContext.init).1.length_le

theorem tryDeletionsFrom_some {best : List (Operation V)} :
    ∀ (rem i : Nat) (b : List (Operation V)), i + rem = best.length →
      tryDeletionsFrom best rem i = some b →
      program_fails b = true ∧ b.length < best.length := by
  intro rem
  induction rem with
  | zero => intro i b _ h; simp [tryDeletionsFrom] at h
  | succ n ih =>
    intro i b hlen h
    have hi : i < best.length := by omega
    simp only [tryDeletionsFrom] at h
    split at h
    · rename_i hf1
      injection h with h
      subst h
      refine ⟨hf1, ?_⟩
      have h1 : (prune_program (best.eraseIdx i)).length ≤ (best.eraseIdx i).length :=
        prune_length_le _
      have h2 : (best.eraseIdx i).length + 1 = best.length :=
        List.length_eraseIdx_add_one hi
      omega
    · split at h
      · split at h
        · rename_i hf2
          injection h with h
          subst h
          refine ⟨hf2, ?_⟩
          have h1 : (prune_program ((best.eraseIdx i).eraseIdx i)).length ≤
              ((best.eraseIdx i).eraseIdx i).length := prune_length_le _
          have h3 : ((best.eraseIdx i).eraseIdx i).length ≤ (best.eraseIdx i).length :=
            (List.eraseIdx_sublist _ _).length_le
          have h2 : (best.eraseIdx i).length + 1 = best.length :=
            List.length_eraseIdx_add_one hi
          omega
        · exact ih (i + 1) b (by omega) h
      · exact ih (i + 1) b (by omega) h

theorem fullPass_some {best b : List (Operation V)} (h : fullPass best = some b) :
    program_fails b = true ∧ b.length < best.length :=
  tryDeletionsFrom_some best.length 0 b (by omega) h

theorem minimizeLoopFuel_spec :
    ∀ (fuel : Nat) (prog : List (Operation V)), prog.length < fuel →
      program_fails prog = true →
      program_fails (minimizeLoopFuel fuel prog) = true ∧
      (minimizeLoopFuel fuel prog).length ≤ prog.length ∧
      fullPass (minimizeLoopFuel fuel prog) = none := by
  intro fuel
  induction fuel with
  | zero => intro prog h; exact absurd h (by omega)
  | succ n ih =>
    intro prog hfuel hfails
    cases hfp : fullPass prog with
    | none =>
      simp only [minimizeLoopFuel, hfp]
      exact ⟨hfails, le_refl _, trivial⟩
    | some b =>
      obtain ⟨hbf, hbl⟩ := fullPass_some hfp
      obtain ⟨r1, r2, r3⟩ := ih b (by omega) hbf
      simp only [minimizeLoopFuel, hfp]
      exact ⟨r1, r2.trans (le_of_lt hbl), r3⟩

/-- C1: `minimize_failing_program` checks its precondition (a non-failing
input hits the assert), and on any failing program `P` it returns a program
`P'` that still fails, with `len(P') ≤ len(P)`, stopping exactly at a fixed
point: a full pass over `P'` accepts no deletion. -/
theorem claim_C1 :
    ∀ (V : Type) (prog : List (Operation V)),
      (program_fails prog = false → minimize_failing_program prog = none) ∧
      (program_fails prog = true →
        ∃ r, minimize_failing_program prog = some r ∧ program_fails r = true ∧
          r.length ≤ prog.length ∧ fullPass r = none) := by
  intro V prog
  constructor
  · intro h
    simp [minimize_failing_program, h]
  · intro h
    obtain ⟨r1, r2, r3⟩ := minimizeLoopFuel_spec (prog.length + 1) prog (by omega) h
    exact ⟨minimizeLoop prog, by simp [minimize_failing_program, h, minimizeLoop],
      r1, r2, r3⟩

/-- Witness for C1 on a concrete failing one-operation program. -/
theorem claim_C1_witness :
    program_fails [opFail] = true ∧
    ∃ r, minimize_failing_program [opFail] = some r ∧ program_fails r = true ∧
      r.length ≤ [opFail].length ∧ fullPass r = none :=
  ⟨rfl, (claim_C1 Nat [opFail]).2 rfl⟩

/-! ### C8: the annotator's records -/

theorem annotateAux_eq (prog : List (Operation V)) :
    ∀ c : RunContext V, annotateAux c prog = annSpecRecords prog (replayAnn c prog) := by
  induction prog with
  | nil => intro c; rfl
  | cons op rest ih =>
    intro c
    simp only [annotateAux, replayAnn, annSpecRecords]
    by_cases hr : (op.invoke c.reset_tracking).2 = true
    · simp [hr]
    · simp [hr, ih]

theorem annotateAux_length (prog : List (Operation V)) :
    ∀ c : RunContext V, (annotateAux c prog).length =
      min ((replayAnn c prog).findIdx (fun r => r.2) + 1) prog.length := by
  induction prog with
  | nil => intro c; simp [annotateAux, replayAnn]
  | cons op rest ih =>
    intro c
    simp only [annotateAux, replayAnn]
    by_cases hr : (op.invoke c.reset_tracking).2 = true
    · simp [hr, List.findIdx_cons, Nat.succ_min_succ]
    · simp [hr, List.findIdx_cons, ih, Nat.succ_min_succ]

/-- C8: `annotate_program` replays the program against a fresh context,
resetting the read/write logs before each step, and returns exactly the
spec-described records — one per executed step in execution order, each
pairing the operation with the write log as its definitions (empty when the
step raised) and the read log as its arguments — with no record beyond the
first raising step: its length is the number of steps up to and including the
first raise, capped by the program length. -/
theorem claim_C8 :
    ∀ (V : Type) (prog : List (Operation V)),
      annotate_program prog = annSpecRecords prog (replayAnn RunContext.init prog) ∧
      (annotate_program prog).length =
        min ((replayAnn RunContext.init prog).findIdx (fun r => r.2) + 1)
          prog.length :=
  fun _ prog => ⟨annotateAux_eq prog RunContext.init, annotateAux_length prog RunContext.init⟩

/-! ### C3 and C4: the search driver -/

theorem runTrial_some_eq :
    ∀ (n : Nat) (gen : Nat → RunContext V → Operation V) (c : RunContext V)
      (s : Nat) (acc p : List (Operation V)), runTrial gen c s n acc = some p →
      (trialSteps gen c s n).findIdx (fun r => r.2) < (trialSteps gen c s n).length ∧
      p = acc ++ ((trialSteps gen c s n).take
          ((trialSteps gen c s n).findIdx (fun r => r.2) + 1)).map Prod.fst := by
  intro n
  induction n with
  | zero => intro gen c s acc p h; simp [runTrial] at h
  | succ m ih =>
    intro gen c s acc p h
    simp only [runTrial] at h
    simp only [trialSteps]
    by_cases hr : ((gen s c).invoke c).2 = true
    · rw [if_pos hr] at h
      injection h with h
      subst h
      constructor
      · simp [List.findIdx_cons, hr]
      · simp [List.findIdx_cons, hr]
    · rw [if_neg hr] at h
      obtain ⟨h1, h2⟩ := ih gen ((gen s c).invoke c).1 (s + 1) (acc ++ [gen s c]) p h
      simp only [Bool.not_eq_true] at hr
      constructor
      · simp only [List.findIdx_cons, hr, cond_false, List.length_cons]
        omega
      · simp only [List.findIdx_cons, hr, cond_false, List.take_succ_cons,
          List.map_cons]
        rw [h2]
        simp [List.append_assoc]

theorem runTrial_some_fails :
    ∀ (n : Nat) (gen : Nat → RunContext V → Operation V) (c : RunContext V)
      (s : Nat) (acc p : List (Operation V)), runTrial gen c s n acc = some p →
      ∃ suf, p = acc ++ suf ∧ (run_programE c suf).2 = true := by
  intro n
  induction n with
  | zero => intro gen c s acc p h; simp [runTrial] at h
  | succ m ih =>
    intro gen c s acc p h
    simp only [runTrial] at h
    by_cases hr : ((gen s c).invoke c).2 = true
    · rw [if_pos hr] at h
      injection h with h
      subst h
      exact ⟨[gen s c], rfl, by simp [run_programE, hr]⟩
    · rw [if_neg hr] at h
      obtain ⟨suf, hp, hf⟩ := ih gen ((gen s c).invoke c).1 (s + 1) (acc ++ [gen s c]) p h
      simp only [Bool.not_eq_true] at hr
      refine ⟨gen s c :: suf, by simpa [List.append_assoc] using hp, ?_⟩
      simp [run_programE, hr, hf]

theorem trialOutcome_fails {gen : Nat → Nat → RunContext V → Operation V}
    {pl t : Nat} {p : List (Operation V)} (h : trialOutcome gen pl t = some p) :
    program_fails p = true := by
  obtain ⟨suf, hp, hf⟩ := runTrial_some_fails pl (gen t) RunContext.init 0 [] p h
  simp only [List.nil_append] at hp
  subst hp
  exact hf

theorem runTrial_none_of {gen : Nat → RunContext V → Operation V}
    (hgen : ∀ (s : Nat) (c : RunContext V), ((gen s c).invoke c).2 = false) :
    ∀ (n : Nat) (c : RunContext V) (s : Nat) (acc : List (Operation V)),
      runTrial gen c s n acc = none := by
  intro n
  induction n with
  | zero => intro c s acc; rfl
  | succ m ih =>
    intro c s acc
    simp only [runTrial, hgen s c]
    exact ih _ _ _

theorem searchLoop_eq (gen : Nat → Nat → RunContext V → Operation V)
    (pl ge ni : Nat) :
    ∀ (rem t found : Nat) (best : Option (List (Operation V))), found < ge →
      searchLoop gen pl ge ni rem t found best =
        match bestAcc best (((List.range' t rem).filterMap
            (trialOutcome gen pl)).take (ge - found)) with
        | some b => .ok b
        | none => .error (.noFailingProgram pl ni) := by
  intro rem
  induction rem with
  | zero =>
    intro t found best hf
    cases best <;> simp [searchLoop, bestAcc, List.range']
  | succ m ih =>
    intro t found best hf
    rw [show List.range' t (m + 1) = t :: List.range' (t + 1) m from
      List.range'_succ t m 1]
    cases ho : trialOutcome gen pl t with
    | none =>
      have ho2 : runTrial (gen t) RunContext.init 0 pl [] = none := ho
      simp only [searchLoop, ho2, List.filterMap_cons, ho]
      exact ih (t + 1) found best hf
    | some p =>
      have ho2 : runTrial (gen t) RunContext.init 0 pl [] = some p := ho
      simp only [searchLoop, ho2, List.filterMap_cons, ho]
      by_cases hgef : ge ≤ found + 1
      · rw [if_pos hgef]
        have hd : ge - found = 1 := by omega
        rw [hd]
        simp [List.take_succ_cons, bestAcc]
      · rw [if_neg hgef]
        rw [ih (t + 1) (found + 1) (some (updateBest best p)) (by omega)]
        have hd : ge - found = (ge - (found + 1)) + 1 := by omega
        rw [hd, List.take_succ_cons]
        rfl

theorem find_eq_spec (gen : Nat → Nat → RunContext V → Operation V)
    (ni pl ge : Nat) (hge : 1 ≤ ge) :
    find_failing_program gen ni pl ge =
      match bestAcc none ((failuresList gen ni pl).take ge) with
      | some b => .ok b
      | none => .error (.noFailingProgram pl ni) := by
  have h := searchLoop_eq gen pl ge ni ni 0 0 none (by omega)
  simpa [find_failing_program, failuresList, List.range_eq_range'] using h

/-- C3: each failing trial's recorded example is its step sequence truncated
at — and including — the first raising step (and is itself a failing
program); the best-example update replaces the current best exactly when the
new example is strictly shorter; and the search returns the fold of that
update over the first `good_enough` failing examples in trial order — the
failure counter advances once per failing trial, and the search stops as soon
as it reaches `good_enough`, otherwise folding every failing trial found
within `n_iters`. -/
theorem claim_C3 :
    ∀ (V : Type) (gen : Nat → Nat → RunContext V → Operation V)
      (n_iters prog_length good_enough : Nat), 1 ≤ good_enough →
      (∀ (t : Nat) (p : List (Operation V)),
          trialOutcome gen prog_length t = some p →
          (trialSteps (gen t) RunContext.init 0 prog_length).findIdx (fun r => r.2) <
            (trialSteps (gen t) RunContext.init 0 prog_length).length ∧
          p = ((trialSteps (gen t) RunContext.init 0 prog_length).take
              ((trialSteps (gen t) RunContext.init 0 prog_length).findIdx
                (fun r => r.2) + 1)).map Prod.fst ∧
          program_fails p = true) ∧
      (∀ b q : List (Operation V),
          updateBest (some b) q = if q.length < b.length then q else b) ∧
      (find_failing_program gen n_iters prog_length good_enough =
        match bestAcc none ((failuresList gen n_iters prog_length).take good_enough) with
        | some b => .ok b
        | none => .error (.noFailingProgram prog_length n_iters)) := by
  intro V gen ni pl ge hge
  refine ⟨?_, fun b q => rfl, find_eq_spec gen ni pl ge hge⟩
  intro t p h
  obtain ⟨h1, h2⟩ := runTrial_some_eq pl (gen t) RunContext.init 0 [] p h
  exact ⟨h1, by simpa using h2, trialOutcome_fails h⟩

/-- Witness for C3: the search-result characterization at a concrete
always-failing generator and bounds. -/
theorem claim_C3_witness :
    find_failing_program genAllFail 1 1 1 =
      match bestAcc none ((failuresList genAllFail 1 1).take 1) with
      | some b => Except.ok b
      | none => Except.error (SearchError.noFailingProgram 1 1) :=
  (claim_C3 Nat genAllFail 1 1 1 (by decide)).2.2

theorem bestAcc_mem :
    ∀ (l : List (List (Operation V))) (b0 : Option (List (Operation V)))
      (b : List (Operation V)), bestAcc b0 l = some b → b0 = some b ∨ b ∈ l := by
  intro l
  induction l with
  | nil => intro b0 b h; exact Or.inl h
  | cons p rest ih =>
    intro b0 b h
    rcases ih (some (updateBest b0 p)) b h with h2 | h2
    · injection h2 with h2
      cases b0 with
      | none =>
        right
        simp only [updateBest] at h2
        rw [← h2]
        exact List.mem_cons_self _ _
      | some b1 =>
        simp only [updateBest] at h2
        split at h2
        · right; rw [← h2]; exact List.mem_cons_self _ _
        · left; rw [h2]
    · exact Or.inr (List.mem_cons_of_mem _ h2)

theorem bestAcc_some_isSome :
    ∀ (l : List (List (Operation V))) (b0 : List (Operation V)),
      ∃ b, bestAcc (some b0) l = some b := by
  intro l
  induction l with
  | nil => intro b0; exact ⟨b0, rfl⟩
  | cons p rest ih => intro b0; exact ih (updateBest (some b0) p)

theorem searchTrialCount_of_none {gen : Nat → Nat → RunContext V → Operation V}
    {pl : Nat} (h : ∀ t, trialOutcome gen pl t = none) (ge : Nat) :
    ∀ (rem t found : Nat) (best : Option (List (Operation V))),
      searchTrialCount gen pl ge rem t found best = rem := by
  intro rem
  induction rem with
  | zero => intro t found best; rfl
  | succ m ih =>
    intro t found best
    simp only [searchTrialCount, h t]
    rw [ih (t + 1) found best]
    omega

theorem find_error_of_none {gen : Nat → Nat → RunContext V → Operation V}
    {ni pl ge : Nat} (hge : 1 ≤ ge) (hnone : ∀ t, trialOutcome gen pl t = none) :
    find_failing_program gen ni pl ge = .error (.noFailingProgram pl ni) := by
  have hfs : failuresList gen ni pl = [] := by
    simp only [failuresList]
    exact List.filterMap_eq_nil_iff.mpr (fun t _ => hnone t)
  rw [find_eq_spec gen ni pl ge hge, hfs]
  simp [List.take_nil, bestAcc]

theorem find_ok_of_failing {gen : Nat → Nat → RunContext V → Operation V}
    {ni pl ge : Nat} (hge : 1 ≤ ge)
    (hex : ∃ t, t < ni ∧ trialOutcome gen pl t ≠ none) :
    ∃ p, find_failing_program gen ni pl ge = .ok p ∧ program_fails p = true := by
  obtain ⟨t, ht, hne⟩ := hex
  obtain ⟨p0, hp0⟩ := Option.ne_none_iff_exists'.mp hne
  have hmem : p0 ∈ failuresList gen ni pl :=
    List.mem_filterMap.mpr ⟨t, List.mem_range.mpr ht, hp0⟩
  have hfsne : failuresList gen ni pl ≠ [] := by
    intro h0
    rw [h0] at hmem
    simp at hmem
  have htake : (failuresList gen ni pl).take ge ≠ [] := by
    rw [Ne, List.take_eq_nil_iff]
    push_neg
    exact ⟨by omega, hfsne⟩
  obtain ⟨x, xs, hx⟩ := List.exists_cons_of_ne_nil htake
  obtain ⟨b, hb⟩ := bestAcc_some_isSome xs (updateBest none x)
  have hbb : bestAcc none (x :: xs) = some b := hb
  rw [find_eq_spec gen ni pl ge hge, hx, hbb]
  refine ⟨b, rfl, ?_⟩
  rcases bestAcc_mem (x :: xs) none b hbb with h0 | h0
  · exact absurd h0 (by simp)
  · have hbfs : b ∈ failuresList gen ni pl := List.mem_of_mem_take (hx ▸ h0)
    obtain ⟨u, hu, hub⟩ := List.mem_filterMap.mp hbfs
    exact trialOutcome_fails hub

/-- C4: when no generated operation's invocation ever raises, the search
examines all `n_iters` trials — the instrumented trial counter is exactly
`n_iters` — and raises `NoFailingProgram`, whose value and rendered message
report the attempted bounds `prog_length` and `n_iters`; conversely, when
some trial within `n_iters` fails, the search never raises this error and
returns a failing example. -/
theorem claim_C4 :
    ∀ (V : Type) (gen : Nat → Nat → RunContext V → Operation V)
      (n_iters prog_length good_enough : Nat), 1 ≤ good_enough →
      ((∀ (t s : Nat) (c : RunContext V), ((gen t s c).invoke c).2 = false) →
        find_failing_program gen n_iters prog_length good_enough =
          .error (.noFailingProgram prog_length n_iters) ∧
        searchTrialCount gen prog_length good_enough n_iters 0 0 none = n_iters ∧
        (SearchError.noFailingProgram prog_length n_iters).message =
          "Unable to find a failing program of length <= " ++ toString prog_length ++
            " after " ++ toString n_iters ++ " iterations") ∧
      ((∃ t, t < n_iters ∧ trialOutcome gen prog_length t ≠ none) →
        ∃ p, find_failing_program gen n_iters prog_length good_enough = .ok p ∧
          program_fails p = true) := by
  intro V gen ni pl ge hge
  constructor
  · intro hgen
    have hnone : ∀ t, trialOutcome gen pl t = none := fun t =>
      runTrial_none_of (fun s c => hgen t s c) pl RunContext.init 0 []
    exact ⟨find_error_of_none hge hnone,
      searchTrialCount_of_none hnone ge ni 0 0 none, rfl⟩
  · exact find_ok_of_failing hge

/-- Witness for C4: with a concrete never-raising generator the search raises
the exhaustion error after exactly the configured number of trials, and with
a concrete failing generator it returns a failing example. -/
theorem claim_C4_witness :
    (find_failing_program genAllSafe 2 1 1 =
        .error (.noFailingProgram 1 2) ∧
      searchTrialCount genAllSafe 1 1 2 0 0 none = 2 ∧
      (SearchError.noFailingProgram 1 2).message =
        "Unable to find a failing program of length <= " ++ toString 1 ++
          " after " ++ toString 2 ++ " iterations") ∧
    (∃ p, find_failing_program genAllFail 1 1 1 = .ok p ∧
      program_fails p = true) :=
  ⟨(claim_C4 Nat genAllSafe 2 1 1 (by decide)).1 (fun _ _ _ => rfl),
   (claim_C4 Nat genAllFail 1 1 1 (by decide)).2 ⟨0, by decide, by
     intro h
     exact Option.noConfusion h⟩⟩

/-! ### C9: the engine exposes no seed option; search depends on ambient
randomness -/

/-- Counterexample to C9: two runs under the *identical* engine configuration
(`TestMachineConfig` is the complete option surface of `TestMachine.__init__`:
`n_iters`, `prog_length`, `good_enough` — there is no RNG or seed option) and
the same registered operations, differing only in the ambient stream of
unseeded-RNG draws consumed by the Choice Combinator's `generate`, produce
different search results.  No configuration option threads a seeded random
source into the contexts, so search cannot be made reproducible through the
engine's configuration. -/
theorem claim_C9_counterexample :
    findWithConfig ⟨1, 1, 1⟩ (chooseFromGen [opSafe, opFail] opSafe (fun _ _ => 1)) ≠
      findWithConfig ⟨1, 1, 1⟩ (chooseFromGen [opSafe, opFail] opSafe (fun _ _ => 0)) := by
  intro h
  have h1 : findWithConfig ⟨1, 1, 1⟩
      (chooseFromGen [opSafe, opFail] opSafe (fun _ _ => 1)) = .ok [opFail] := rfl
  have h2 : findWithConfig ⟨1, 1, 1⟩
      (chooseFromGen [opSafe, opFail] opSafe (fun _ _ => 0)) =
        .error (.noFailingProgram 1 1) := rfl
  rw [h1, h2] at h
  exact Except.noConfusion h

/-- C9 (amended): the engine exposes no configuration option for a random
source — `TestMachine.__init__` recognizes only `n_iters`, `prog_length` and
`good_enough`, and every Execution Context built during search, pruning and
annotation is `RunContext()` with a freshly constructed unseeded generator
(`RunContext`'s optional `random` parameter is never supplied) — so under any
one engine configuration the search outcome still varies with the ambient
randomness: for every configuration with nonzero bounds, the two ambient
draw streams below yield different results for the same registered
operations. -/
theorem claim_C9_amended :
    ∀ cfg : TestMachineConfig, 1 ≤ cfg.n_iters → 1 ≤ cfg.prog_length →
      1 ≤ cfg.good_enough →
      findWithConfig cfg (chooseFromGen [opSafe, opFail] opSafe (fun _ _ => 1)) ≠
        findWithConfig cfg (chooseFromGen [opSafe, opFail] opSafe (fun _ _ => 0)) := by
  intro cfg hni hpl hge h
  have hsafe : ∀ t, trialOutcome
      (chooseFromGen [opSafe, opFail] opSafe (fun _ _ => 0)) cfg.prog_length t =
        none := by
    intro t
    exact runTrial_none_of (fun s c => rfl) cfg.prog_length RunContext.init 0 []
  have herr : findWithConfig cfg
      (chooseFromGen [opSafe, opFail] opSafe (fun _ _ => 0)) =
        .error (.noFailingProgram cfg.prog_length cfg.n_iters) :=
    find_error_of_none hge hsafe
  have hfail0 : trialOutcome
      (chooseFromGen [opSafe, opFail] opSafe (fun _ _ => 1)) cfg.prog_length 0 ≠
        none := by
    cases hp : cfg.prog_length with
    | zero => omega
    | succ m =>
      intro hcon
      simp only [trialOutcome, runTrial, chooseFromGen, opFail] at hcon
      simp at hcon
  have hex : ∃ t, t < cfg.n_iters ∧ trialOutcome
      (chooseFromGen [opSafe, opFail] opSafe (fun _ _ => 1)) cfg.prog_length t ≠
        none := ⟨0, by omega, hfail0⟩
  obtain ⟨p, hp, hpf⟩ := find_ok_of_failing hge hex
  rw [show findWithConfig cfg
      (chooseFromGen [opSafe, opFail] opSafe (fun _ _ => 1)) =
        find_failing_program (chooseFromGen [opSafe, opFail] opSafe (fun _ _ => 1))
          cfg.n_iters cfg.prog_length cfg.good_enough from rfl, hp, herr] at h
  exact Except.noConfusion h

/-- Witness for the amended C9 at the concrete configuration `⟨1, 1, 1⟩`. -/
theorem claim_C9_amended_witness :
    findWithConfig ⟨1, 1, 1⟩ (chooseFromGen [opSafe, opFail] opSafe (fun _ _ => 1)) ≠
      findWithConfig ⟨1, 1, 1⟩ (chooseFromGen [opSafe, opFail] opSafe (fun _ _ => 0)) :=
  claim_C9_amended ⟨1, 1, 1⟩ (by decide) (by decide) (by decide)

end Testmachine
